import Mathlib

/-!
A shallow embedding of the front-end parser in `src/parser/parser.rs`
(hvm-lang definition-book parser, built on the chumsky combinator library),
together with theorems checking the specification's claims about it.

The parser consumes a stream of spanned tokens.  We model the token stream
as a `List STok` (token with byte-span), and each chumsky combinator as a
PEG-style backtracking function `List STok → Option (α × List STok)`:
on failure nothing is consumed (the caller keeps its own input list),
matching chumsky's rewind-on-failure semantics.
-/

set_option maxHeartbeats 1000000

/-- Tokens of the language, as consumed by `parser.rs`.  The lexer itself is
an external collaborator (not under `src/`); the variants are exactly the ones
the parser matches on: names, numbers, newline, `;`, `=`, parentheses, `λ`/`@`,
`$`, `dup`, `let`, `*`, the numeric operator tokens, and lexer errors. -/
inductive Token where
  | name (s : String)
  | number (n : Nat)
  | newLine
  | semicolon
  | equals
  | lparen
  | rparen
  | lambda
  | dollar
  | dup
  | lett
  | asterisk
  | add
  | sub
  | div
  | mod
  | and
  | or
  | xor
  | shl
  | shr
  | lte
  | ltn
  | gte
  | gtn
  | equalsEquals
  | notEquals
  | error
deriving Repr, DecidableEq, BEq

/-- Closed enumeration of numeric operators (`NumOper` in the source). -/
inductive NumOper where
  | add | sub | mul | div | mod | and | or | xor
  | shl | shr | lte | ltn | gte | gtn | eql | neq
deriving Repr, DecidableEq

/-- Term AST (`Term` in the source).  Note there is no dedicated `let`
constructor: `let` is desugared in the grammar. -/
inductive Term where
  | var (nam : String)
  | globalVar (nam : String)
  | num (val : Nat)
  | lam (nam : Option String) (bod : Term)
  | globalLam (nam : String) (bod : Term)
  | dup (fst snd : Option String) (val nxt : Term)
  | app (fn arg : Term)
  | numOp (op : NumOper) (fst snd : Term)
deriving Repr, DecidableEq

/-- Pattern AST (`Pattern` in the source). -/
inductive Pattern where
  | ctr (nam : String) (args : List Pattern)
  | num (val : Nat)
  | var (nam : Option String)
deriving Repr

/-- Modelled from the spec: `DefId` is a deterministic identifier derived
from a `Name` (stable hash or direct encoding, two names with the same
`DefId` are the same definition); the `ast` module defining it is not under
`src/`, so we model it as the direct (injective) encoding, i.e. the name
string itself. -/
abbrev DefId := String

/-- Modelled from the spec: conversion `DefId::from(&Name)`, the direct
encoding of a name as its `DefId`. -/
def DefId.fromName (n : String) : DefId := n

/-- Modelled from the spec: conversion `Name::from(DefId)`, recovering the
name from the encoding. -/
def Name.fromDefId (d : DefId) : String := d

/-- One clause of a definition (`Rule` in the source). -/
structure Rule where
  def_id : DefId
  pats : List Pattern
  body : Term
deriving Repr

/-- A named, possibly multi-clause definition (`Definition` in the source). -/
structure Definition where
  name : String
  rules : List Rule
deriving Repr

/-- The definition book (`DefinitionBook` in the source): a map from `DefId`
to `Definition`.  The Rust `HashMap` is modelled as an association list with
unique keys, with `Entry::Vacant`-style insertion. -/
structure DefinitionBook where
  defs : List (DefId × Definition)
deriving Repr

/-- Diagnostics produced by the parser, carrying the information content of
the `Rich` errors in the source: `NameTooLong` (span, capacity, text),
`RepeatedDefinition` (span, name), and a generic grammar-mismatch error. -/
inductive Diag where
  | nameTooLong (spanStart spanEnd : Nat) (maxLen : Nat) (text : String)
  | repeatedDefinition (spanStart spanEnd : Nat) (name : String)
  | parseError
deriving Repr, DecidableEq

/-- Modelled from the spec: `PTR_CAPACITY`, the number of distinct values of
the tag-stripped payload field of the downstream runtime's pointer word
(`Ptr::new(0, Val::MAX).data() + 1` from the external `hvm_core` crate, not
under `src/`).  The source's own name-token comment
(`[_a-zA-Z][_a-zA-Z0-9]{0..7}`, i.e. at most 8 characters) pins the payload
width at 48 bits. -/
def PTR_CAPACITY : Nat := 2 ^ 48

/-- Fueled helper for `ilog2` (floor of the base-2 logarithm), written
structurally so it computes in the kernel. -/
def ilog2Go : Nat → Nat → Nat
  | 0, _ => 0
  | fuel + 1, n => if 2 ≤ n then ilog2Go fuel (n / 2) + 1 else 0

/-- Rust's `u.ilog2()`: floor of the base-2 logarithm. -/
def ilog2 (n : Nat) : Nat := ilog2Go n n

/-- Maximum name length, as in the source:
`(Ptr::new(0, Val::MAX).data() + 1).ilog2() / 64_u32.ilog2()`,
i.e. `floor(log64(PTR_CAPACITY))`. -/
def MAX_NAME_LEN : Nat := ilog2 PTR_CAPACITY / ilog2 64

/-- A spanned token: token together with its byte span `(start, end)`. -/
abbrev STok := Token × Nat × Nat

/-- A parser in the shallow embedding: returns the parsed value and the
remaining input, or `none` on failure (consuming nothing, as the caller
keeps its original list — chumsky's rewind-on-failure). -/
def P (α : Type) : Type := List STok → Option (α × List STok)

/-- chumsky `just(tok)`: match one exact token. -/
def justP (t : Token) : P PUnit := fun ts =>
  match ts with
  | (u, _, _) :: rest => if u = t then some (PUnit.unit, rest) else none
  | [] => none

/-- Ordered choice of two parsers: second is tried from the same input when
the first fails (chumsky `choice` / `or`). -/
def orElseP (p q : P α) : P α := fun ts =>
  match p ts with
  | some r => some r
  | none => q ts

/-- chumsky `choice((...))`: ordered choice over a list of alternatives. -/
def choiceP : List (P α) → P α
  | [] => fun _ => none
  | p :: ps => orElseP p (choiceP ps)

/-- chumsky `map`. -/
def mapP (p : P α) (f : α → β) : P β := fun ts =>
  match p ts with
  | some (a, rest) => some (f a, rest)
  | none => none

/-- chumsky `then`: sequence two parsers, pairing their outputs. -/
def andThenP (p : P α) (q : P β) : P (α × β) := fun ts =>
  match p ts with
  | some (a, rest) =>
    match q rest with
    | some (b, rest2) => some ((a, b), rest2)
    | none => none
  | none => none

/-- chumsky `ignore_then`: sequence, keeping the second output. -/
def ignoreThenP (p : P α) (q : P β) : P β := mapP (andThenP p q) Prod.snd

/-- chumsky `then_ignore`: sequence, keeping the first output. -/
def thenIgnoreP (p : P α) (q : P β) : P α := mapP (andThenP p q) Prod.fst

/-- chumsky `delimited_by(l, r)`: `l`, then the parser, then `r`. -/
def delimitedByP (p : P α) (l : P β) (r : P γ) : P α :=
  thenIgnoreP (ignoreThenP l p) r

/-- Greedy iteration loop for `repeated`: keeps applying `p` while it
succeeds, rewinding the final failed attempt.  Fuel is the input length;
iteration also stops if `p` succeeds without consuming (which cannot happen
for the grammar's items, each of which consumes at least one token). -/
def repGo (p : P α) : Nat → List STok → List α × List STok
  | 0, ts => ([], ts)
  | fuel + 1, ts =>
    match p ts with
    | none => ([], ts)
    | some (a, rest) =>
      if rest.length < ts.length then
        let r := repGo p fuel rest
        (a :: r.1, r.2)
      else ([], ts)

/-- chumsky `repeated().collect()`: zero or more occurrences, greedy. -/
def repeatedP (p : P α) : P (List α) := fun ts => some (repGo p ts.length ts)

/-- chumsky `repeated().at_least(1).collect()`: one or more occurrences. -/
def repeated1P (p : P α) : P (List α) :=
  mapP (andThenP p (repeatedP p)) (fun ab => ab.1 :: ab.2)

/-- chumsky `a.foldl(b.repeated(), f)`. -/
def foldlP (p : P α) (q : P β) (f : α → β → α) : P α :=
  mapP (andThenP p (repeatedP q)) (fun ab => ab.2.foldl f ab.1)

/-- Span of the tokens consumed between an input list and its remaining
suffix: from the start of the first consumed token to the end of the last
one (models chumsky's `SpannedInput` span for `map_with_span`). -/
def consumedSpan (ts rest : List STok) : Nat × Nat :=
  let consumed := ts.take (ts.length - rest.length)
  match consumed.head?, consumed.getLast? with
  | some h, some l => (h.2.1, l.2.2)
  | _, _ => (0, 0)

/-- chumsky `map_with_span(|x, span| (x, span))`. -/
def withSpanP (p : P α) : P (α × Nat × Nat) := fun ts =>
  match p ts with
  | some (a, rest) => some ((a, consumedSpan ts rest), rest)
  | none => none

/-- The `new_line()` helper of the source: `just(Token::NewLine).repeated()`. -/
def newLinesP : P (List PUnit) := repeatedP (justP Token.newLine)

/-- Newline separator for the book: `just(Token::NewLine).repeated().at_least(1)`. -/
def newLines1P : P (List PUnit) := repeated1P (justP Token.newLine)

/-- The `name` parser with its failure payload
(`select!(Token::Name(name)).try_map(...)` in the source): succeeds on a
name token whose length is within `MAX_NAME_LEN`, fails with a
`NameTooLong` diagnostic — carrying the capacity and the offending text,
anchored at the token's span — when the length exceeds the capacity, and
fails without a custom diagnostic on any other token. -/
def nameRun (ts : List STok) : Except (Option Diag) (String × List STok) :=
  match ts with
  | (Token.name s, sp, ep) :: rest =>
    if s.length > MAX_NAME_LEN then
      Except.error (some (Diag.nameTooLong sp ep MAX_NAME_LEN s))
    else
      Except.ok (s, rest)
  | _ => Except.error none

/-- The `name` parser as used inside the grammar (failure payload dropped,
as chumsky errors only matter at the top level). -/
def nameP : P String := fun ts =>
  match nameRun ts with
  | Except.ok r => some r
  | Except.error _ => none

/-- `name_or_era`: `choice((select!(Token::Asterisk => None), name().map(Some)))`. -/
def nameOrEraP : P (Option String) :=
  choiceP [(fun ts =>
    match ts with
    | (Token.asterisk, _, _) :: rest => some (none, rest)
    | _ => none), mapP nameP some]

/-- `num_oper`: the `select!` table mapping operator tokens to `NumOper`. -/
def numOperP : P NumOper := fun ts =>
  match ts with
  | (Token.add, _, _) :: rest => some (NumOper.add, rest)
  | (Token.sub, _, _) :: rest => some (NumOper.sub, rest)
  | (Token.asterisk, _, _) :: rest => some (NumOper.mul, rest)
  | (Token.div, _, _) :: rest => some (NumOper.div, rest)
  | (Token.mod, _, _) :: rest => some (NumOper.mod, rest)
  | (Token.and, _, _) :: rest => some (NumOper.and, rest)
  | (Token.or, _, _) :: rest => some (NumOper.or, rest)
  | (Token.xor, _, _) :: rest => some (NumOper.xor, rest)
  | (Token.shl, _, _) :: rest => some (NumOper.shl, rest)
  | (Token.shr, _, _) :: rest => some (NumOper.shr, rest)
  | (Token.lte, _, _) :: rest => some (NumOper.lte, rest)
  | (Token.ltn, _, _) :: rest => some (NumOper.ltn, rest)
  | (Token.gte, _, _) :: rest => some (NumOper.gte, rest)
  | (Token.gtn, _, _) :: rest => some (NumOper.gtn, rest)
  | (Token.equalsEquals, _, _) :: rest => some (NumOper.eql, rest)
  | (Token.notEquals, _, _) :: rest => some (NumOper.neq, rest)
  | _ => none

/-- Number literal in term position: `select!(Token::Number(num) => Term::Num)`. -/
def numberP : P Term := fun ts =>
  match ts with
  | (Token.number n, _, _) :: rest => some (Term.num n, rest)
  | _ => none

/-- Variable: `name().map(|name| Term::Var)`. -/
def varP : P Term := mapP nameP Term.var

/-- Global variable: `just(Token::Dollar).ignore_then(name()).map(Term::GlobalVar)`. -/
def globalVarP : P Term :=
  mapP (ignoreThenP (justP Token.dollar) nameP) Term.globalVar

/-- The `term_sep` of the source: `choice((just(Token::NewLine), just(Token::Semicolon)))`
— exactly one newline or exactly one semicolon. -/
def termSepP : P PUnit := orElseP (justP Token.newLine) (justP Token.semicolon)

/-- Lambda alternative `λx body`, parameterized by the recursive term parser
(the argument of `recursive(|term| ...)` in the source). -/
def lamP (term : P Term) : P Term :=
  mapP
    (andThenP
      (thenIgnoreP (ignoreThenP (ignoreThenP (justP Token.lambda) newLinesP) nameOrEraP) newLinesP)
      term)
    (fun nb => Term.lam nb.1 nb.2)

/-- Global lambda alternative `λ$x body`. -/
def globalLamP (term : P Term) : P Term :=
  mapP
    (andThenP
      (thenIgnoreP
        (ignoreThenP
          (ignoreThenP
            (ignoreThenP (ignoreThenP (justP Token.lambda) newLinesP) (justP Token.dollar))
            newLinesP)
          nameP)
        newLinesP)
      term)
    (fun nb => Term.globalLam nb.1 nb.2)

/-- Dup alternative `dup x1 x2 = val; next` (separator: `term_sep` then `\n*`). -/
def dupP (term : P Term) : P Term :=
  mapP
    (andThenP
      (thenIgnoreP
        (thenIgnoreP
          (andThenP
            (thenIgnoreP
              (andThenP
                (thenIgnoreP (ignoreThenP (ignoreThenP (justP Token.dup) newLinesP) nameOrEraP)
                  newLinesP)
                nameOrEraP)
              newLinesP)
            (ignoreThenP (ignoreThenP (justP Token.equals) newLinesP) term))
          termSepP)
        newLinesP)
      term)
    (fun x => Term.dup x.1.1.1 x.1.1.2 x.1.2 x.2)

/-- Let alternative `let x = body; next`, desugared in the grammar to
`App(Lam(x, next), body)` — no dedicated AST node. -/
def letP (term : P Term) : P Term :=
  mapP
    (andThenP
      (thenIgnoreP
        (thenIgnoreP
          (andThenP
            (thenIgnoreP (ignoreThenP (ignoreThenP (justP Token.lett) newLinesP) nameOrEraP)
              newLinesP)
            (ignoreThenP (ignoreThenP (justP Token.equals) newLinesP) term))
          termSepP)
        newLinesP)
      term)
    (fun x => Term.app (Term.lam x.1.1 x.2) x.1.2)

/-- Application alternative `(f arg1 arg2 ...)`: a parenthesized,
newline-tolerant nonempty term sequence folded left-associatively into
binary `App` nodes. -/
def appP (term : P Term) : P Term :=
  delimitedByP
    (delimitedByP (foldlP term (ignoreThenP newLinesP term) Term.app) newLinesP newLinesP)
    (justP Token.lparen) (justP Token.rparen)

/-- Numeric-operation alternative `(op fst snd)`. -/
def numOpP (term : P Term) : P Term :=
  mapP
    (delimitedByP
      (delimitedByP
        (andThenP (thenIgnoreP (andThenP (thenIgnoreP numOperP newLinesP) term) newLinesP) term)
        newLinesP newLinesP)
      (justP Token.lparen) (justP Token.rparen))
    (fun x => Term.numOp x.1.1 x.1.2 x.2)

/-- The recursive term parser: fuel-indexed fixed point of
`recursive(|term| choice((global_var, var, number, global_lam, lam, dup, let_, num_op, app)))`.
Every recursive occurrence of `term` in an alternative is applied only
after at least one token has been consumed, so fuel `length + 1` suffices. -/
def termF : Nat → P Term
  | 0 => fun _ => none
  | fuel + 1 =>
    choiceP [globalVarP, varP, numberP,
      globalLamP (termF fuel), lamP (termF fuel), dupP (termF fuel), letP (termF fuel),
      numOpP (termF fuel), appP (termF fuel)]

/-- The term parser `term()` of the source, with sufficient fuel. -/
def termP : P Term := fun ts => termF (ts.length + 1) ts

/-- Constructor pattern alternative `(Name Pattern*)`. -/
def ctrP (pat : P Pattern) : P Pattern :=
  mapP
    (delimitedByP (andThenP nameP (repeatedP pat)) (justP Token.lparen) (justP Token.rparen))
    (fun x => Pattern.ctr x.1 x.2)

/-- Number pattern alternative. -/
def numPatP : P Pattern := fun ts =>
  match ts with
  | (Token.number n, _, _) :: rest => some (Pattern.num n, rest)
  | _ => none

/-- Variable-or-erasure pattern alternative. -/
def varPatP : P Pattern := mapP nameOrEraP Pattern.var

/-- The recursive pattern parser: `recursive(|pattern| choice((ctr, num, var)))`. -/
def patternF : Nat → P Pattern
  | 0 => fun _ => none
  | fuel + 1 => choiceP [ctrP (patternF fuel), numPatP, varPatP]

/-- The pattern parser `pattern()` of the source, with sufficient fuel. -/
def patternP : P Pattern := fun ts => patternF (ts.length + 1) ts

/-- Inline application body: `term().foldl(term().repeated(), App)`. -/
def inlineAppP : P Term := foldlP termP termP Term.app

/-- Inline numeric-operation body: `num_oper().then(term()).then(term())`. -/
def inlineNumOpP : P Term :=
  mapP (andThenP (andThenP numOperP termP) termP) (fun x => Term.numOp x.1.1 x.1.2 x.2)

/-- The `rule()` parser: a (possibly parenthesized) name, zero or more
patterns, newlines, `=`, newlines, then an inline numeric-op or inline
application body. -/
def ruleP : P Rule :=
  mapP
    (andThenP
      (thenIgnoreP
        (thenIgnoreP
          (thenIgnoreP
            (andThenP
              (choiceP [nameP, delimitedByP nameP (justP Token.lparen) (justP Token.rparen)])
              (repeatedP patternP))
            newLinesP)
          (justP Token.equals))
        newLinesP)
      (choiceP [inlineNumOpP, inlineAppP]))
    (fun x => { def_id := DefId.fromName x.1.1, pats := x.1.2, body := x.2 })

/-- Maximal runs of consecutive elements sharing the same key (the semantics
of Itertools `group_by` used in `rules_to_book`). -/
def runsBy (f : α → String) : List α → List (List α)
  | [] => []
  | a :: rest =>
    match runsBy f rest with
    | [] => [[a]]
    | [] :: gs => [[a]] ++ gs
    | (b :: g) :: gs =>
      if f a = f b then (a :: b :: g) :: gs else [a] :: (b :: g) :: gs

/-- One step of the book-assembly fold: insert a run's `Definition` if its
`DefId` is vacant, else emit one `RepeatedDefinition` diagnostic spanning
the run (start of its first clause to end of its last clause). -/
def bookStep (acc : DefinitionBook × List Diag) (run : List (Rule × Nat × Nat)) :
    DefinitionBook × List Diag :=
  match run with
  | [] => acc
  | (r, s, e) :: _ =>
    let def_id := r.def_id
    let d : Definition := { name := Name.fromDefId def_id, rules := run.map (fun x => x.1) }
    if acc.1.defs.any (fun kv => kv.1 = def_id) then
      let spans := run.map (fun x => x.2)
      let lastSpan := spans.getLastD (s, e)
      (acc.1, acc.2 ++ [Diag.repeatedDefinition s lastSpan.2 (Name.fromDefId def_id)])
    else
      ({ defs := acc.1.defs ++ [(def_id, d)] }, acc.2)

/-- `rules_to_book` from the source: group the spanned rules into maximal
runs of consecutive clauses with equal `DefId` and fold them into a book,
emitting `RepeatedDefinition` diagnostics for runs whose key is taken. -/
def rules_to_book (rules : List (Rule × Nat × Nat)) : DefinitionBook × List Diag :=
  (runsBy (fun r => r.1.def_id) rules).foldl bookStep (⟨[]⟩, [])

/-- The iteration loop of chumsky's `separated_by(sep).allow_leading().allow_trailing()`
(with `at_least(0)`): before the first item an optional leading separator is
consumed; before every later item the separator is required (iteration ends,
rewinding it, when it is missing); a failed item attempt ends the iteration,
keeping the separator consumed (`allow_trailing`).  Fuel is the input length;
iteration also stops on a non-consuming step, which cannot happen here since
both the separator and a rule consume at least one token. -/
def sepGo (item : P α) (sep : P (List PUnit)) :
    Nat → Bool → List STok → List α × List STok
  | 0, _, ts => ([], ts)
  | fuel + 1, isFirst, ts =>
    let afterSep : Option (List STok) :=
      if isFirst then
        match sep ts with
        | some (_, r) => some r
        | none => some ts
      else
        match sep ts with
        | some (_, r) => some r
        | none => none
    match afterSep with
    | none => ([], ts)
    | some ts' =>
      match item ts' with
      | some (a, r) =>
        if r.length < ts.length then
          let rec' := sepGo item sep fuel false r
          (a :: rec'.1, rec'.2)
        else ([], ts')
      | none => ([], ts')

/-- The `parsed_rules` parser of `book()`:
`rule().map_with_span(..).separated_by(\n+).allow_leading().allow_trailing().collect()`.
It never fails (zero items are acceptable). -/
def parsedRules (ts : List STok) : List (Rule × Nat × Nat) × List STok :=
  sepGo (withSpanP ruleP) newLines1P (ts.length + 1) true ts

/-- The full run of `book().parse(..)` before `into_result`: the book and
the `validate`-emitted diagnostics, together with the remaining input
(which the end-of-input check of `parse` requires to be empty). -/
def runBook (ts : List STok) : (DefinitionBook × List Diag) × List STok :=
  let pr := parsedRules ts
  (rules_to_book pr.1, pr.2)

/-- All diagnostics produced by a whole-book parse: the emitted
book-assembly diagnostics, plus one grammar-mismatch error when the parser
did not consume the entire input (chumsky reports a single merged error for
the failure). -/
def collectedDiags (ts : List STok) : List Diag :=
  let r := runBook ts
  if r.2.isEmpty then r.1.2 else r.1.2 ++ [Diag.parseError]

/-- `parse_definition_book`: `book().parse(token_stream(code)).into_result()`
— `Ok` exactly when zero diagnostics were produced, otherwise the diagnostic
list (and no book). -/
def parse_definition_book (ts : List STok) : Except (List Diag) DefinitionBook :=
  let r := runBook ts
  let diags := collectedDiags ts
  if diags.isEmpty then Except.ok r.1.1 else Except.error diags

/-- The standalone-term parser of `parse_term`:
`choice((inline_app, inline_num_oper)).delimited_by(\n*, \n*)`. -/
def standaloneTermP : P Term :=
  delimitedByP (choiceP [inlineAppP, inlineNumOpP]) newLinesP newLinesP

/-- `parse_term`: `standalone_term.parse(token_stream(code)).into_result()`. -/
def parse_term (ts : List STok) : Except (List Diag) Term :=
  match standaloneTermP ts with
  | some (t, []) => Except.ok t
  | _ => Except.error [Diag.parseError]

/-- Modelled from the spec (book-assembly algorithm, steps 1-5): process the
maximal runs in order with a set of already-present keys; a run whose key is
new becomes a `Definition` (run's clauses in original order); a run whose key
is already present is discarded and yields exactly one `RepeatedDefinition`
diagnostic spanning the run.  A second, spec-side definition, to be compared
with `rules_to_book`. -/
def assembleRuns : List (List (Rule × Nat × Nat)) → List String →
    List (DefId × Definition) × List Diag
  | [], _ => ([], [])
  | [] :: rest, seen => assembleRuns rest seen
  | ((r, s, e) :: rs) :: rest, seen =>
    let k := r.def_id
    let run := (r, s, e) :: rs
    if seen.any (fun x => x = k) then
      let res := assembleRuns rest seen
      let lastSpan := (run.map (fun x => x.2)).getLastD (s, e)
      (res.1, Diag.repeatedDefinition s lastSpan.2 (Name.fromDefId k) :: res.2)
    else
      let res := assembleRuns rest (seen ++ [k])
      ((k, { name := Name.fromDefId k, rules := run.map (fun x => x.1) }) :: res.1, res.2)

/-- Modelled from the spec: the whole book-assembly algorithm as the spec
states it — partition into maximal runs of consecutive clauses with equal
`DefId`, then process runs in order, first run per key winning. -/
def bookAssemblySpec (rules : List (Rule × Nat × Nat)) :
    List (DefId × Definition) × List Diag :=
  assembleRuns (runsBy (fun r => r.1.def_id) rules) []

theorem orElseP_none {α : Type} {p q : P α} {ts : List STok} (h : p ts = none) :
    orElseP p q ts = q ts := by
  simp [orElseP, h]

theorem orElseP_some {α : Type} {p q : P α} {ts : List STok} {r : α × List STok}
    (h : p ts = some r) : orElseP p q ts = some r := by
  simp [orElseP, h]

theorem choiceP_cons_none {α : Type} {p : P α} {ps : List (P α)} {ts : List STok}
    (h : p ts = none) : choiceP (p :: ps) ts = choiceP ps ts := by
  simp [choiceP, orElseP, h]

theorem choiceP_cons_some {α : Type} {p : P α} {ps : List (P α)} {ts : List STok}
    {r : α × List STok} (h : p ts = some r) : choiceP (p :: ps) ts = some r := by
  simp [choiceP, orElseP, h]

theorem mapP_some {α β : Type} {p : P α} {f : α → β} {ts ts1 : List STok} {a : α}
    (h : p ts = some (a, ts1)) : mapP p f ts = some (f a, ts1) := by
  simp [mapP, h]

theorem mapP_none {α β : Type} {p : P α} {f : α → β} {ts : List STok}
    (h : p ts = none) : mapP p f ts = none := by
  simp [mapP, h]

theorem andThenP_some {α β : Type} {p : P α} {q : P β} {ts ts1 ts2 : List STok}
    {a : α} {b : β} (h1 : p ts = some (a, ts1)) (h2 : q ts1 = some (b, ts2)) :
    andThenP p q ts = some ((a, b), ts2) := by
  simp [andThenP, h1, h2]

theorem andThenP_none1 {α β : Type} {p : P α} {q : P β} {ts : List STok}
    (h : p ts = none) : andThenP p q ts = none := by
  simp [andThenP, h]

theorem andThenP_none2 {α β : Type} {p : P α} {q : P β} {ts ts1 : List STok} {a : α}
    (h1 : p ts = some (a, ts1)) (h2 : q ts1 = none) : andThenP p q ts = none := by
  simp [andThenP, h1, h2]

theorem ignoreThenP_some {α β : Type} {p : P α} {q : P β} {ts ts1 ts2 : List STok}
    {a : α} {b : β} (h1 : p ts = some (a, ts1)) (h2 : q ts1 = some (b, ts2)) :
    ignoreThenP p q ts = some (b, ts2) :=
  mapP_some (andThenP_some h1 h2)

theorem thenIgnoreP_some {α β : Type} {p : P α} {q : P β} {ts ts1 ts2 : List STok}
    {a : α} {b : β} (h1 : p ts = some (a, ts1)) (h2 : q ts1 = some (b, ts2)) :
    thenIgnoreP p q ts = some (a, ts2) :=
  mapP_some (andThenP_some h1 h2)

theorem justP_cons {t : Token} {sp ep : Nat} {ts : List STok} :
    justP t ((t, sp, ep) :: ts) = some (PUnit.unit, ts) := by
  simp [justP]

theorem justP_cons_ne {t u : Token} {sp ep : Nat} {ts : List STok} (h : u ≠ t) :
    justP t ((u, sp, ep) :: ts) = none := by
  simp [justP, h]

theorem nameP_ok {s : String} {sp ep : Nat} {rest : List STok}
    (h : s.length ≤ MAX_NAME_LEN) :
    nameP ((Token.name s, sp, ep) :: rest) = some (s, rest) := by
  simp [nameP, nameRun, Nat.not_lt.2 h]

theorem nameOrEraP_name {s : String} {sp ep : Nat} {rest : List STok}
    (h : s.length ≤ MAX_NAME_LEN) :
    nameOrEraP ((Token.name s, sp, ep) :: rest) = some (some s, rest) := by
  have : nameP ((Token.name s, sp, ep) :: rest) = some (s, rest) := nameP_ok h
  simp [nameOrEraP, choiceP, orElseP, mapP, this]

theorem nameOrEraP_asterisk {sp ep : Nat} {rest : List STok} :
    nameOrEraP ((Token.asterisk, sp, ep) :: rest) = some (none, rest) := rfl

theorem newLinesP_cons_ne {u : Token} {sp ep : Nat} {ts : List STok}
    (h : u ≠ Token.newLine) :
    newLinesP ((u, sp, ep) :: ts) = some ([], (u, sp, ep) :: ts) := by
  simp [newLinesP, repeatedP, repGo, justP, h]

theorem newLinesP_nil : newLinesP [] = some ([], []) := rfl

theorem termSepP_newLine {sp ep : Nat} {ts : List STok} :
    termSepP ((Token.newLine, sp, ep) :: ts) = some (PUnit.unit, ts) := by
  simp [termSepP, orElseP, justP]

theorem termSepP_semicolon {sp ep : Nat} {ts : List STok} :
    termSepP ((Token.semicolon, sp, ep) :: ts) = some (PUnit.unit, ts) := by
  simp [termSepP, orElseP, justP]

/-- C2: an identifier token of length exactly `MAX_NAME_LEN` parses
successfully as a name; any identifier token longer than that makes the
name parser fail with a `NameTooLong` diagnostic carrying the computed
capacity and the offending text, anchored at the token's span; and the
parser fails with this diagnostic if and only if the length exceeds the
capacity.  Concretely, the capacity is 8: `abcdefgh` (length 8) parses and
`abcdefghi` (length 9) fails. -/
theorem name_length_validation :
    (∀ (s : String) (sp ep : Nat) (rest : List STok),
      (nameRun ((Token.name s, sp, ep) :: rest) = Except.ok (s, rest) ↔
        s.length ≤ MAX_NAME_LEN) ∧
      (nameRun ((Token.name s, sp, ep) :: rest) =
          Except.error (some (Diag.nameTooLong sp ep MAX_NAME_LEN s)) ↔
        MAX_NAME_LEN < s.length)) ∧
    "abcdefgh".length = MAX_NAME_LEN ∧
    nameRun [(Token.name "abcdefgh", 0, 8)] = Except.ok ("abcdefgh", []) ∧
    nameRun [(Token.name "abcdefghi", 0, 9)] =
      Except.error (some (Diag.nameTooLong 0 9 MAX_NAME_LEN "abcdefghi")) := by
  refine ⟨fun s sp ep rest => ?_, by decide, rfl, rfl⟩
  by_cases h : s.length ≤ MAX_NAME_LEN
  · refine ⟨by simp [nameRun, Nat.not_lt.2 h, h], ?_⟩
    simp only [nameRun, if_neg (Nat.not_lt.2 h)]
    constructor
    · intro hcontra
      exact absurd hcontra (by simp)
    · intro hlt
      exact absurd h (Nat.not_le.2 hlt)
  · have h' : MAX_NAME_LEN < s.length := Nat.lt_of_not_le h
    refine ⟨?_, by simp [nameRun, h', h]⟩
    simp only [nameRun, if_pos h']
    constructor
    · intro hcontra
      exact absurd hcontra (by simp)
    · intro hle
      exact absurd hle (Nat.not_le.2 h')

/-- C6: `let x = b; n` parses to `App(Lam(Some x, n), b)` — there is no
dedicated let node in `Term`.  The general statement is parametric in the
bound name and in the sub-parses of the value and continuation terms; the
concrete instance shows `let x = 1; x` parses to
`App(Lam(Some x, Var x), Num 1)`, structurally identical to the parse of
`(λx x 1)`. -/
theorem let_desugaring :
    (∀ (fuel : Nat) (x : String) (l1 l2 n1 n2 e1 e2 q1 q2 : Nat)
        (ts ts2 rest : List STok) (b n : Term) (sep : Token),
      x.length ≤ MAX_NAME_LEN →
      sep = Token.newLine ∨ sep = Token.semicolon →
      newLinesP ts = some ([], ts) →
      termF fuel ts = some (b, (sep, q1, q2) :: ts2) →
      newLinesP ts2 = some ([], ts2) →
      termF fuel ts2 = some (n, rest) →
      termF (fuel + 1)
          ((Token.lett, l1, l2) :: (Token.name x, n1, n2) :: (Token.equals, e1, e2) :: ts)
        = some (Term.app (Term.lam (some x) n) b, rest)) ∧
    parse_term [(Token.lett, 0, 3), (Token.name "x", 4, 5), (Token.equals, 6, 7),
        (Token.number 1, 8, 9), (Token.semicolon, 9, 10), (Token.name "x", 11, 12)]
      = Except.ok (Term.app (Term.lam (some "x") (Term.var "x")) (Term.num 1)) ∧
    parse_term [(Token.lparen, 0, 1), (Token.lambda, 1, 2), (Token.name "x", 2, 3),
        (Token.name "x", 4, 5), (Token.number 1, 6, 7), (Token.rparen, 7, 8)]
      = Except.ok (Term.app (Term.lam (some "x") (Term.var "x")) (Term.num 1)) := by
  refine ⟨?_, rfl, rfl⟩
  intro fuel x l1 l2 n1 n2 e1 e2 q1 q2 ts ts2 rest b n sep hx hsep h0 hb h2 hn
  have hsepTok : termSepP ((sep, q1, q2) :: ts2) = some (PUnit.unit, ts2) := by
    rcases hsep with h | h <;> subst h
    · exact termSepP_newLine
    · exact termSepP_semicolon
  have hY : thenIgnoreP
      (ignoreThenP (ignoreThenP (justP Token.lett) newLinesP) nameOrEraP) newLinesP
      ((Token.lett, l1, l2) :: (Token.name x, n1, n2) :: (Token.equals, e1, e2) :: ts)
      = some (some x, (Token.equals, e1, e2) :: ts) :=
    thenIgnoreP_some
      (ignoreThenP_some (ignoreThenP_some justP_cons (newLinesP_cons_ne (by simp)))
        (nameOrEraP_name hx))
      (newLinesP_cons_ne (by simp))
  have hlet : letP (termF fuel)
      ((Token.lett, l1, l2) :: (Token.name x, n1, n2) :: (Token.equals, e1, e2) :: ts)
      = some (Term.app (Term.lam (some x) n) b, rest) :=
    mapP_some (andThenP_some
      (thenIgnoreP_some
        (thenIgnoreP_some
          (andThenP_some hY (ignoreThenP_some (ignoreThenP_some justP_cons h0) hb))
          hsepTok)
        h2)
      hn)
  simp only [termF]
  rw [choiceP_cons_none (by rfl), choiceP_cons_none (by rfl), choiceP_cons_none (by rfl),
    choiceP_cons_none (by rfl), choiceP_cons_none (by rfl), choiceP_cons_none (by rfl)]
  exact choiceP_cons_some hlet

/-- Witness for `let_desugaring`: its general part applied to the concrete
source `let x = 1; x` (value `1`, continuation `x`). -/
theorem let_desugaring_witness :
    termF 2 [(Token.lett, 0, 3), (Token.name "x", 4, 5), (Token.equals, 6, 7),
        (Token.number 1, 8, 9), (Token.semicolon, 9, 10), (Token.name "x", 11, 12)]
      = some (Term.app (Term.lam (some "x") (Term.var "x")) (Term.num 1), []) :=
  let_desugaring.1 1 "x" 0 3 4 5 6 7 9 10
    [(Token.number 1, 8, 9), (Token.semicolon, 9, 10), (Token.name "x", 11, 12)]
    [(Token.name "x", 11, 12)] [] (Term.num 1) (Term.var "x") Token.semicolon
    (by decide) (Or.inr rfl) rfl rfl rfl rfl

/-- Counterexample to C3: the claim says that, per the grammar production
`(NL+|NL*";")`, a value followed by a newline and then a semicolon before
the continuation (`dup a b = v \n ; next`) is accepted.  The code's
`term_sep` is `choice((just(NewLine), just(Semicolon)))` — exactly one
newline or one semicolon — so after the newline is consumed the semicolon
cannot start the continuation term and the parse fails. -/
theorem dup_newline_then_semicolon_rejected :
    termP [(Token.dup, 0, 3), (Token.name "a", 4, 5), (Token.name "b", 6, 7),
        (Token.equals, 8, 9), (Token.name "v", 10, 11), (Token.newLine, 11, 12),
        (Token.semicolon, 12, 13), (Token.name "n", 14, 15)] = none ∧
    parse_term [(Token.dup, 0, 3), (Token.name "a", 4, 5), (Token.name "b", 6, 7),
        (Token.equals, 8, 9), (Token.name "v", 10, 11), (Token.newLine, 11, 12),
        (Token.semicolon, 12, 13), (Token.name "n", 14, 15)]
      = Except.error [Diag.parseError] := ⟨rfl, rfl⟩

/-- C3 (amended): in `dup` (and `let`) terms the separator between the bound
value and the continuation is exactly one newline or exactly one semicolon,
followed by any number of newlines (not the full `(NL+|NL*";")` production:
a newline followed by a semicolon is rejected, see the counterexample).
The newline form and the semicolon form parse to the same AST: the general
statement is uniform in the separator token, and concretely
`dup a b = v \n next`, `dup a b = v ; next` and `dup a b = v \n\n next`
all parse to `Dup(Some a, Some b, Var v, Var next)`. -/
theorem dup_let_separator :
    (∀ (fuel : Nat) (a b : String) (d1 d2 a1 a2 b1 b2 e1 e2 q1 q2 : Nat)
        (ts ts2 ts3 rest : List STok) (l : List PUnit) (v n : Term) (sep : Token),
      a.length ≤ MAX_NAME_LEN →
      b.length ≤ MAX_NAME_LEN →
      sep = Token.newLine ∨ sep = Token.semicolon →
      newLinesP ts = some ([], ts) →
      termF fuel ts = some (v, (sep, q1, q2) :: ts2) →
      newLinesP ts2 = some (l, ts3) →
      termF fuel ts3 = some (n, rest) →
      termF (fuel + 1)
          ((Token.dup, d1, d2) :: (Token.name a, a1, a2) :: (Token.name b, b1, b2) ::
            (Token.equals, e1, e2) :: ts)
        = some (Term.dup (some a) (some b) v n, rest)) ∧
    termP [(Token.dup, 0, 3), (Token.name "a", 4, 5), (Token.name "b", 6, 7),
        (Token.equals, 8, 9), (Token.name "v", 10, 11), (Token.newLine, 11, 12),
        (Token.name "n", 12, 13)]
      = some (Term.dup (some "a") (some "b") (Term.var "v") (Term.var "n"), []) ∧
    termP [(Token.dup, 0, 3), (Token.name "a", 4, 5), (Token.name "b", 6, 7),
        (Token.equals, 8, 9), (Token.name "v", 10, 11), (Token.semicolon, 11, 12),
        (Token.name "n", 13, 14)]
      = some (Term.dup (some "a") (some "b") (Term.var "v") (Term.var "n"), []) ∧
    termP [(Token.dup, 0, 3), (Token.name "a", 4, 5), (Token.name "b", 6, 7),
        (Token.equals, 8, 9), (Token.name "v", 10, 11), (Token.newLine, 11, 12),
        (Token.newLine, 12, 13), (Token.name "n", 13, 14)]
      = some (Term.dup (some "a") (some "b") (Term.var "v") (Term.var "n"), []) := by
  refine ⟨?_, rfl, rfl, rfl⟩
  intro fuel a b d1 d2 a1 a2 b1 b2 e1 e2 q1 q2 ts ts2 ts3 rest l v n sep
  intro ha hb hsep h0 hv h2 hn
  have hsepTok : termSepP ((sep, q1, q2) :: ts2) = some (PUnit.unit, ts2) := by
    rcases hsep with h | h <;> subst h
    · exact termSepP_newLine
    · exact termSepP_semicolon
  have hAB : thenIgnoreP
      (andThenP
        (thenIgnoreP
          (ignoreThenP (ignoreThenP (justP Token.dup) newLinesP) nameOrEraP) newLinesP)
        nameOrEraP)
      newLinesP
      ((Token.dup, d1, d2) :: (Token.name a, a1, a2) :: (Token.name b, b1, b2) ::
        (Token.equals, e1, e2) :: ts)
      = some ((some a, some b), (Token.equals, e1, e2) :: ts) :=
    thenIgnoreP_some
      (andThenP_some
        (thenIgnoreP_some
          (ignoreThenP_some (ignoreThenP_some justP_cons (newLinesP_cons_ne (by simp)))
            (nameOrEraP_name ha))
          (newLinesP_cons_ne (by simp)))
        (nameOrEraP_name hb))
      (newLinesP_cons_ne (by simp))
  have hdup : dupP (termF fuel)
      ((Token.dup, d1, d2) :: (Token.name a, a1, a2) :: (Token.name b, b1, b2) ::
        (Token.equals, e1, e2) :: ts)
      = some (Term.dup (some a) (some b) v n, rest) :=
    mapP_some (andThenP_some
      (thenIgnoreP_some
        (thenIgnoreP_some
          (andThenP_some hAB (ignoreThenP_some (ignoreThenP_some justP_cons h0) hv))
          hsepTok)
        h2)
      hn)
  simp only [termF]
  rw [choiceP_cons_none (by rfl), choiceP_cons_none (by rfl), choiceP_cons_none (by rfl),
    choiceP_cons_none (by rfl), choiceP_cons_none (by rfl)]
  exact choiceP_cons_some hdup

/-- Witness for `dup_let_separator`: its general part applied to the
concrete source `dup a b = v ; next`. -/
theorem dup_let_separator_witness :
    termF 2 [(Token.dup, 0, 3), (Token.name "a", 4, 5), (Token.name "b", 6, 7),
        (Token.equals, 8, 9), (Token.name "v", 10, 11), (Token.semicolon, 11, 12),
        (Token.name "n", 13, 14)]
      = some (Term.dup (some "a") (some "b") (Term.var "v") (Term.var "n"), []) :=
  dup_let_separator.1 1 "a" "b" 0 3 4 5 6 7 8 9 11 12
    [(Token.name "v", 10, 11), (Token.semicolon, 11, 12), (Token.name "n", 13, 14)]
    [(Token.name "n", 13, 14)] [(Token.name "n", 13, 14)] [] [] (Term.var "v")
    (Term.var "n") Token.semicolon (by decide) (by decide) (Or.inr rfl) rfl rfl rfl rfl

/-- C7: a parenthesized term sequence folds left-associatively into nested
binary `App` nodes (`(f a b c)`, `(f 1 2)`); a parenthesized leading
operator token with two sub-terms parses as `NumOp` and not as an
application (`(+ 1 2)`); the term parser tries its alternatives in the
order global var, var, number, global lambda, lambda, dup, let, numeric op,
application; and a failed alternative consumes no input (the remaining
alternatives run from the very same input). -/
theorem paren_forms_and_alternative_order :
    termP [(Token.lparen, 0, 1), (Token.name "f", 1, 2), (Token.name "a", 3, 4),
        (Token.name "b", 5, 6), (Token.name "c", 7, 8), (Token.rparen, 8, 9)]
      = some (Term.app (Term.app (Term.app (Term.var "f") (Term.var "a")) (Term.var "b"))
          (Term.var "c"), []) ∧
    termP [(Token.lparen, 0, 1), (Token.name "f", 1, 2), (Token.number 1, 3, 4),
        (Token.number 2, 5, 6), (Token.rparen, 6, 7)]
      = some (Term.app (Term.app (Term.var "f") (Term.num 1)) (Term.num 2), []) ∧
    termP [(Token.lparen, 0, 1), (Token.add, 1, 2), (Token.number 1, 3, 4),
        (Token.number 2, 5, 6), (Token.rparen, 6, 7)]
      = some (Term.numOp NumOper.add (Term.num 1) (Term.num 2), []) ∧
    (∀ fuel : Nat, termF (fuel + 1) = choiceP [globalVarP, varP, numberP,
        globalLamP (termF fuel), lamP (termF fuel), dupP (termF fuel), letP (termF fuel),
        numOpP (termF fuel), appP (termF fuel)]) ∧
    (∀ (α : Type) (p : P α) (ps : List (P α)) (ts : List STok),
      p ts = none → choiceP (p :: ps) ts = choiceP ps ts) :=
  ⟨rfl, rfl, rfl, fun _ => rfl, fun _ _ _ _ h => choiceP_cons_none h⟩

/-- Witness for `paren_forms_and_alternative_order`: the no-input-consumed
part applied to the failing `num_op` alternative on `(f 1 2)`: the
remaining alternatives run from the same unconsumed input. -/
theorem paren_forms_and_alternative_order_witness :
    choiceP (numOpP (termF 5) :: [appP (termF 5)])
        [(Token.lparen, 0, 1), (Token.name "f", 1, 2), (Token.number 1, 3, 4),
          (Token.number 2, 5, 6), (Token.rparen, 6, 7)]
      = choiceP [appP (termF 5)]
          [(Token.lparen, 0, 1), (Token.name "f", 1, 2), (Token.number 1, 3, 4),
            (Token.number 2, 5, 6), (Token.rparen, 6, 7)] :=
  paren_forms_and_alternative_order.2.2.2.2 _ _ _ _ (by rfl)

/-- C8: the standalone entry point `parse_term` accepts, at top level and
without surrounding parentheses, bare juxtaposition (`f 1 2`) and bare
prefix numeric-operator application (`+ 1 2`), each optionally surrounded
by newlines. -/
theorem parse_term_standalone :
    parse_term [(Token.name "f", 0, 1), (Token.number 1, 2, 3), (Token.number 2, 4, 5)]
      = Except.ok (Term.app (Term.app (Term.var "f") (Term.num 1)) (Term.num 2)) ∧
    parse_term [(Token.add, 0, 1), (Token.number 1, 2, 3), (Token.number 2, 4, 5)]
      = Except.ok (Term.numOp NumOper.add (Term.num 1) (Term.num 2)) ∧
    parse_term [(Token.newLine, 0, 1), (Token.name "f", 1, 2), (Token.number 1, 3, 4),
        (Token.number 2, 5, 6), (Token.newLine, 6, 7)]
      = Except.ok (Term.app (Term.app (Term.var "f") (Term.num 1)) (Term.num 2)) ∧
    parse_term [(Token.newLine, 0, 1), (Token.add, 1, 2), (Token.number 1, 3, 4),
        (Token.number 2, 5, 6), (Token.newLine, 6, 7)]
      = Except.ok (Term.numOp NumOper.add (Term.num 1) (Term.num 2)) :=
  ⟨rfl, rfl, rfl, rfl⟩

/-- C10: the `*` token is context-dependent: in binder or pattern position
(`name_or_era`) it parses as erasure (`None`, respectively
`Pattern::Var(None)`); in operator position it parses as `NumOper::Mul`;
`*` can never start a term (so it is not an erasure term); and a rule body
`* a b` parses as `NumOp(Mul, Var a, Var b)` because the inline numeric-op
alternative is tried before inline application. -/
theorem asterisk_duality :
    (∀ (sp ep : Nat) (rest : List STok),
      nameOrEraP ((Token.asterisk, sp, ep) :: rest) = some (none, rest)) ∧
    (∀ (sp ep : Nat) (rest : List STok),
      patternP ((Token.asterisk, sp, ep) :: rest) = some (Pattern.var none, rest)) ∧
    (∀ (sp ep : Nat) (rest : List STok),
      numOperP ((Token.asterisk, sp, ep) :: rest) = some (NumOper.mul, rest)) ∧
    (∀ (fuel sp ep : Nat) (rest : List STok),
      termF fuel ((Token.asterisk, sp, ep) :: rest) = none) ∧
    ruleP [(Token.name "f", 0, 1), (Token.name "x", 2, 3), (Token.equals, 4, 5),
        (Token.asterisk, 6, 7), (Token.name "a", 8, 9), (Token.name "b", 10, 11)]
      = some ({ def_id := "f", pats := [Pattern.var (some "x")],
                body := Term.numOp NumOper.mul (Term.var "a") (Term.var "b") }, []) := by
  refine ⟨fun sp ep rest => rfl, fun sp ep rest => rfl, fun sp ep rest => rfl,
    fun fuel sp ep rest => ?_, rfl⟩
  cases fuel with
  | zero => rfl
  | succ n => rfl

/-- Key of a run (the shared key of its clauses, read off its head). -/
def runKey (f : α → String) (run : List α) : String :=
  match run.head? with
  | some a => f a
  | none => ""

theorem runsBy_join {α : Type} (f : α → String) (l : List α) :
    (runsBy f l).flatten = l := by
  induction l with
  | nil => rfl
  | cons a rest ih =>
    simp only [runsBy]
    split
    next heq =>
      rw [heq] at ih
      simp only [List.flatten_nil] at ih
      simp [← ih]
    next gs heq =>
      rw [heq] at ih
      simp only [List.flatten_cons, List.nil_append] at ih
      simp [ih]
    next b g gs heq =>
      rw [heq] at ih
      simp only [List.flatten_cons] at ih
      split
      · simp [ih]
      · simp [ih]

theorem runsBy_runs {α : Type} (f : α → String) (l : List α) :
    ∀ run ∈ runsBy f l, ∃ x xs, run = x :: xs ∧ ∀ y ∈ run, f y = f x := by
  induction l with
  | nil => intro run h; simp [runsBy] at h
  | cons a rest ih =>
    intro run hrun
    simp only [runsBy] at hrun
    split at hrun
    next heq =>
      simp at hrun
      subst hrun
      exact ⟨a, [], rfl, by simp⟩
    next gs heq =>
      simp only [List.singleton_append, List.mem_cons] at hrun
      rcases hrun with hrun | hrun
      · subst hrun
        exact ⟨a, [], rfl, by simp⟩
      · exact ih run (heq ▸ List.mem_cons_of_mem _ hrun)
    next b g gs heq =>
      split at hrun
      next hf =>
        rcases List.mem_cons.1 hrun with hrun | hrun
        · subst hrun
          obtain ⟨x, xs, hx, hall⟩ := ih (b :: g) (heq ▸ List.mem_cons_self _ _)
          injection hx with hx1 hx2
          subst hx1
          refine ⟨a, b :: g, rfl, ?_⟩
          intro y hy
          rcases List.mem_cons.1 hy with hy | hy
          · rw [hy]
          · rw [hall y hy]
            exact hf.symm
        · exact ih run (heq ▸ List.mem_cons_of_mem _ hrun)
      next hf =>
        rcases List.mem_cons.1 hrun with hrun | hrun
        · subst hrun
          exact ⟨a, [], rfl, by simp⟩
        · exact ih run (heq ▸ hrun)

theorem runsBy_chain {α : Type} (f : α → String) (l : List α) :
    List.Chain' (fun r s => runKey f r ≠ runKey f s) (runsBy f l) := by
  induction l with
  | nil => simp [runsBy]
  | cons a rest ih =>
    simp only [runsBy]
    split
    next heq => simp
    next gs heq =>
      exfalso
      obtain ⟨x, xs, hx, -⟩ := runsBy_runs f rest [] (heq ▸ List.mem_cons_self _ _)
      exact List.noConfusion hx
    next b g gs heq =>
      rw [heq] at ih
      split
      next hf =>
        cases gs with
        | nil => simp
        | cons s gs' =>
          rw [List.chain'_cons] at ih ⊢
          refine ⟨?_, ih.2⟩
          have hk : runKey f (a :: b :: g) = runKey f (b :: g) := by
            simp [runKey, hf]
          rw [hk]
          exact ih.1
      next hf =>
        rw [List.chain'_cons]
        refine ⟨?_, ih⟩
        simpa [runKey] using hf

theorem foldl_bookStep_eq (runs : List (List (Rule × Nat × Nat))) :
    ∀ acc : DefinitionBook × List Diag,
      (runs.foldl bookStep acc).1.defs
        = acc.1.defs ++ (assembleRuns runs (acc.1.defs.map Prod.fst)).1 ∧
      (runs.foldl bookStep acc).2
        = acc.2 ++ (assembleRuns runs (acc.1.defs.map Prod.fst)).2 := by
  induction runs with
  | nil => intro acc; simp [assembleRuns]
  | cons run rest ih =>
    intro acc
    cases run with
    | nil =>
      simp only [List.foldl_cons, bookStep, assembleRuns]
      exact ih acc
    | cons hd tl =>
      obtain ⟨r, s, e⟩ := hd
      simp only [List.foldl_cons, bookStep, assembleRuns]
      have hmem : ((acc.1.defs.map Prod.fst).any fun x => x = r.def_id)
          = (acc.1.defs.any fun kv => kv.1 = r.def_id) := by
        induction acc.1.defs with
        | nil => rfl
        | cons d ds ihd => simp [ihd]
      rw [hmem]
      cases hb : acc.1.defs.any fun kv => kv.1 = r.def_id with
      | true =>
        simp only [if_pos rfl, if_true]
        obtain ⟨ih1, ih2⟩ := ih (acc.1, acc.2 ++
          [Diag.repeatedDefinition s
            ((((r, s, e) :: tl).map (fun x => x.2)).getLastD (s, e)).2
            (Name.fromDefId r.def_id)])
        refine ⟨?_, ?_⟩
        · simpa using ih1
        · simp only at ih2
          rw [ih2]
          simp
      | false =>
        simp only [Bool.false_eq_true, if_false]
        obtain ⟨ih1, ih2⟩ := ih
          (⟨acc.1.defs ++ [(r.def_id,
              { name := Name.fromDefId r.def_id,
                rules := ((r, s, e) :: tl).map (fun x => x.1) })]⟩, acc.2)
        refine ⟨?_, ?_⟩
        · simp only at ih1
          rw [ih1]
          simp
        · simp only at ih2
          rw [ih2]
          simp

/-- Token stream of the source `f 0 = 1\ng x = x\nf 1 = 2` (two
non-contiguous clauses for `f`). -/
def c1Toks : List STok :=
  [(Token.name "f", 0, 1), (Token.number 0, 2, 3), (Token.equals, 4, 5),
   (Token.number 1, 6, 7), (Token.newLine, 7, 8),
   (Token.name "g", 8, 9), (Token.name "x", 10, 11), (Token.equals, 12, 13),
   (Token.name "x", 14, 15), (Token.newLine, 15, 16),
   (Token.name "f", 16, 17), (Token.number 1, 18, 19), (Token.equals, 20, 21),
   (Token.number 2, 22, 23)]

/-- Token stream of the source `f 0 = 1\nf 1 = 2\ng x = x` (the two `f`
clauses adjacent). -/
def c1AdjToks : List STok :=
  [(Token.name "f", 0, 1), (Token.number 0, 2, 3), (Token.equals, 4, 5),
   (Token.number 1, 6, 7), (Token.newLine, 7, 8),
   (Token.name "f", 8, 9), (Token.number 1, 10, 11), (Token.equals, 12, 13),
   (Token.number 2, 14, 15), (Token.newLine, 15, 16),
   (Token.name "g", 16, 17), (Token.name "x", 18, 19), (Token.equals, 20, 21),
   (Token.name "x", 22, 23)]

/-- C1: book assembly partitions the parsed clause sequence into maximal
runs of consecutive clauses with equal `DefId` (the runs cover the sequence
in order, are nonempty with constant key, and adjacent runs have different
keys); the first run per `DefId` becomes that definition, with clauses in
original order, and every later run with a taken key is discarded, emitting
exactly one `RepeatedDefinition` diagnostic spanning the run (this is
`rules_to_book` agreeing with the spec-side `bookAssemblySpec` on all
inputs).  Concretely: for `f 0 = 1 / g x = x / f 1 = 2` the book keeps `g`
fully and `f` with only its first clause, with one diagnostic spanning the
second `f` clause (bytes 16-23); with the two `f` clauses adjacent, `f`
keeps both clauses in order and no diagnostic is emitted. -/
theorem book_assembly_runs :
    (∀ rules : List (Rule × Nat × Nat),
      (rules_to_book rules).1.defs = (bookAssemblySpec rules).1 ∧
      (rules_to_book rules).2 = (bookAssemblySpec rules).2) ∧
    (∀ (α : Type) (f : α → String) (l : List α),
      (runsBy f l).flatten = l ∧
      (∀ run ∈ runsBy f l, ∃ x xs, run = x :: xs ∧ ∀ y ∈ run, f y = f x) ∧
      List.Chain' (fun r s => runKey f r ≠ runKey f s) (runsBy f l)) ∧
    parsedRules c1Toks =
      ([({ def_id := "f", pats := [Pattern.num 0], body := Term.num 1 }, 0, 7),
        ({ def_id := "g", pats := [Pattern.var (some "x")], body := Term.var "x" }, 8, 15),
        ({ def_id := "f", pats := [Pattern.num 1], body := Term.num 2 }, 16, 23)], []) ∧
    rules_to_book (parsedRules c1Toks).1 =
      ({ defs :=
          [("f", { name := "f",
                   rules := [{ def_id := "f", pats := [Pattern.num 0], body := Term.num 1 }] }),
           ("g", { name := "g",
                   rules := [{ def_id := "g", pats := [Pattern.var (some "x")],
                               body := Term.var "x" }] })] },
        [Diag.repeatedDefinition 16 23 "f"]) ∧
    rules_to_book (parsedRules c1AdjToks).1 =
      ({ defs :=
          [("f", { name := "f",
                   rules := [{ def_id := "f", pats := [Pattern.num 0], body := Term.num 1 },
                             { def_id := "f", pats := [Pattern.num 1], body := Term.num 2 }] }),
           ("g", { name := "g",
                   rules := [{ def_id := "g", pats := [Pattern.var (some "x")],
                               body := Term.var "x" }] })] },
        []) := by
  refine ⟨fun rules => ?_, fun α f l => ⟨runsBy_join f l, runsBy_runs f l, runsBy_chain f l⟩,
    rfl, rfl, rfl⟩
  obtain ⟨h1, h2⟩ := foldl_bookStep_eq (runsBy (fun r => r.1.def_id) rules) (⟨[]⟩, [])
  constructor
  · rw [rules_to_book, bookAssemblySpec, h1]
    simp
  · rw [rules_to_book, bookAssemblySpec, h2]
    simp

/-- Witness for `book_assembly_runs`: its run-shape part applied to the
concrete key sequence `f, f, g`, whose first maximal run is `[f, f]`. -/
theorem book_assembly_runs_witness :
    ∃ x xs, (["f", "f"] : List String) = x :: xs ∧
      ∀ y ∈ (["f", "f"] : List String), (fun s : String => s) y = (fun s : String => s) x :=
  (book_assembly_runs.2.1 String (fun s => s) ["f", "f", "g"]).2.1 ["f", "f"] (by decide)

theorem repGo_newline_all (ts : List STok) : ∀ n : Nat,
    (∀ x ∈ ts, x.1 = Token.newLine) → ts.length ≤ n →
    ∃ l, repGo (justP Token.newLine) n ts = (l, []) := by
  induction ts with
  | nil =>
    intro n _ _
    cases n
    · exact ⟨[], rfl⟩
    · exact ⟨[], rfl⟩
  | cons x rest ih =>
    intro n hall hn
    obtain ⟨u, sp, ep⟩ := x
    have hu : u = Token.newLine := hall (u, sp, ep) (List.mem_cons_self _ _)
    subst hu
    cases n with
    | zero => simp at hn
    | succ m =>
      have hm : rest.length ≤ m := by simpa using hn
      obtain ⟨l, hl⟩ := ih m (fun y hy => hall y (List.mem_cons_of_mem _ hy)) hm
      refine ⟨PUnit.unit :: l, ?_⟩
      simp only [repGo, justP_cons]
      rw [if_pos (by simp)]
      simp [hl]

/-- C9: `parse_definition_book` on the empty token stream — and on a stream
consisting only of newline tokens — succeeds and returns an empty
`DefinitionBook` with no diagnostics: a book may contain zero rules. -/
theorem empty_source_book :
    parse_definition_book [] = Except.ok { defs := [] } ∧
    (∀ ts : List STok, (∀ x ∈ ts, x.1 = Token.newLine) →
      parse_definition_book ts = Except.ok { defs := [] }) := by
  refine ⟨rfl, fun ts hall => ?_⟩
  cases ts with
  | nil => rfl
  | cons x rest =>
    obtain ⟨u, sp, ep⟩ := x
    have hu : u = Token.newLine := hall (u, sp, ep) (List.mem_cons_self _ _)
    subst hu
    obtain ⟨l, hl⟩ := repGo_newline_all rest rest.length
      (fun y hy => hall y (List.mem_cons_of_mem _ hy)) (Nat.le_refl _)
    have hsep : newLines1P ((Token.newLine, sp, ep) :: rest) = some (PUnit.unit :: l, []) := by
      simp only [newLines1P, repeated1P]
      exact mapP_some (andThenP_some justP_cons (by simp [repeatedP, hl]))
    have hrules : parsedRules ((Token.newLine, sp, ep) :: rest) = ([], []) := by
      simp only [parsedRules, List.length_cons]
      simp only [sepGo, hsep]
      rfl
    simp [parse_definition_book, collectedDiags, runBook, hrules, rules_to_book, runsBy]

/-- Witness for `empty_source_book`: a source of two newline tokens parses
to the empty book. -/
theorem empty_source_book_witness :
    parse_definition_book [(Token.newLine, 0, 1), (Token.newLine, 1, 2)]
      = Except.ok { defs := [] } :=
  empty_source_book.2 [(Token.newLine, 0, 1), (Token.newLine, 1, 2)]
    (by intro x hx; fin_cases hx <;> rfl)

/-- Whether a diagnostic is a grammar-mismatch (syntax) error, as opposed to
a book-assembly or name-length diagnostic. -/
def Diag.isParseErr : Diag → Bool
  | Diag.parseError => true
  | _ => false

theorem foldl_bookStep_no_parseErr (runs : List (List (Rule × Nat × Nat))) :
    ∀ acc : DefinitionBook × List Diag, (∀ d ∈ acc.2, d.isParseErr = false) →
      ∀ d ∈ (runs.foldl bookStep acc).2, d.isParseErr = false := by
  induction runs with
  | nil => intro acc h; exact h
  | cons run rest ih =>
    intro acc hacc
    simp only [List.foldl_cons]
    apply ih
    cases run with
    | nil => exact hacc
    | cons hd tl =>
      obtain ⟨r, s, e⟩ := hd
      simp only [bookStep]
      split
      · intro d hd'
        rcases List.mem_append.1 hd' with h | h
        · exact hacc d h
        · simp only [List.mem_singleton] at h
          subst h
          rfl
      · exact hacc

theorem collectedDiags_parseErr_le (ts : List STok) :
    ((collectedDiags ts).filter (fun d => d.isParseErr)).length ≤ 1 := by
  have hall : ∀ d ∈ (runBook ts).1.2, d.isParseErr = false := by
    have h := foldl_bookStep_no_parseErr
      (runsBy (fun r => r.1.def_id) (parsedRules ts).1) (⟨[]⟩, []) (by simp)
    simpa [runBook, rules_to_book] using h
  have hnil : (runBook ts).1.2.filter (fun d => d.isParseErr) = [] := by
    rw [List.filter_eq_nil_iff]
    intro d hd
    simp [hall d hd]
  unfold collectedDiags
  by_cases hc : (runBook ts).2.isEmpty
  · simp [hc, hnil]
  · simp only [hc, if_false, Bool.false_eq_true, List.filter_append, hnil,
      List.nil_append]
    simp [Diag.isParseErr]

/-- Token stream of the source `f = =\ng = =`: two separately malformed
rules (each body starts with a stray `=`). -/
def twoBadToks : List STok :=
  [(Token.name "f", 0, 1), (Token.equals, 2, 3), (Token.equals, 4, 5),
   (Token.newLine, 5, 6),
   (Token.name "g", 6, 7), (Token.equals, 8, 9), (Token.equals, 10, 11)]

/-- Counterexample to C4: on a source with two separately malformed rules
the parser does not continue past the first failure; the returned
diagnostic list is the single generic syntax diagnostic, so it does not
report both independent problems. -/
theorem first_error_only :
    parse_definition_book twoBadToks = Except.error [Diag.parseError] ∧
    ¬ ∃ ds : List Diag, parse_definition_book twoBadToks = Except.error ds ∧
        2 ≤ ds.length := by
  refine ⟨rfl, ?_⟩
  rintro ⟨ds, hds, hlen⟩
  rw [show parse_definition_book twoBadToks = Except.error [Diag.parseError] from rfl] at hds
  injection hds with h
  subst h
  simp at hlen

/-- C4 (amended): there is no error recovery — grammar-level mismatches
abort rule collection at the first failure, so a whole-book parse yields at
most one grammar-mismatch diagnostic (book-assembly `RepeatedDefinition`
diagnostics are still accumulated alongside); in particular a source with
two separately malformed rules reports only a single syntax diagnostic. -/
theorem no_error_recovery :
    (∀ (ts : List STok) (ds : List Diag), parse_definition_book ts = Except.error ds →
      (ds.filter (fun d => d.isParseErr)).length ≤ 1) ∧
    parse_definition_book twoBadToks = Except.error [Diag.parseError] := by
  refine ⟨?_, rfl⟩
  intro ts ds h
  have hds : ds = collectedDiags ts := by
    by_cases hc : (collectedDiags ts).isEmpty
    · simp [parse_definition_book, hc] at h
    · simp only [parse_definition_book, hc, if_false, Bool.false_eq_true] at h
      exact (Except.error.injEq .. ▸ h).symm
  rw [hds]
  exact collectedDiags_parseErr_le ts

/-- Witness for `no_error_recovery`: its bound applied to the concrete
two-bad-rules source. -/
theorem no_error_recovery_witness :
    (([Diag.parseError] : List Diag).filter (fun d => d.isParseErr)).length ≤ 1 :=
  no_error_recovery.1 twoBadToks [Diag.parseError] rfl

/-- Token stream of the source `f 0 = 1\ng x = x\nf 1 = 2`, used to show
that a book assembled internally is withheld when a `RepeatedDefinition`
diagnostic was emitted. -/
def c5Toks : List STok :=
  [(Token.name "f", 0, 1), (Token.number 0, 2, 3), (Token.equals, 4, 5),
   (Token.number 1, 6, 7), (Token.newLine, 7, 8),
   (Token.name "g", 8, 9), (Token.name "x", 10, 11), (Token.equals, 12, 13),
   (Token.name "x", 14, 15), (Token.newLine, 15, 16),
   (Token.name "f", 16, 17), (Token.number 1, 18, 19), (Token.equals, 20, 21),
   (Token.number 2, 22, 23)]

/-- C5: `parse_definition_book` returns `Ok` with the assembled book if and
only if zero diagnostics were produced during the whole parse; on any
diagnostic the caller receives exactly the diagnostic list and no book.
Concretely, on a source with a repeated definition the result is the
one-element diagnostic list, even though a (two-definition) partial book
was internally assembled. -/
theorem all_or_nothing_result :
    (∀ ts : List STok,
      ((∃ b, parse_definition_book ts = Except.ok b) ↔ collectedDiags ts = []) ∧
      (∀ b, parse_definition_book ts = Except.ok b → b = (runBook ts).1.1) ∧
      (∀ ds, parse_definition_book ts = Except.error ds → ds = collectedDiags ts)) ∧
    parse_definition_book c5Toks = Except.error [Diag.repeatedDefinition 16 23 "f"] ∧
    (runBook c5Toks).1.1.defs.length = 2 := by
  refine ⟨fun ts => ⟨⟨?_, ?_⟩, ?_, ?_⟩, rfl, rfl⟩
  · rintro ⟨b, hb⟩
    by_contra hne
    have hc : ¬ (collectedDiags ts).isEmpty = true := by
      simpa [List.isEmpty_iff] using hne
    simp [parse_definition_book, hc] at hb
  · intro hnil
    refine ⟨(runBook ts).1.1, ?_⟩
    simp [parse_definition_book, hnil]
  · intro b hb
    by_cases hc : (collectedDiags ts).isEmpty
    · simp only [parse_definition_book, hc, if_true] at hb
      exact (Except.ok.injEq .. ▸ hb).symm
    · simp [parse_definition_book, hc] at hb
  · intro ds hds
    by_cases hc : (collectedDiags ts).isEmpty
    · simp [parse_definition_book, hc] at hds
    · simp only [parse_definition_book, hc, if_false, Bool.false_eq_true] at hds
      exact (Except.error.injEq .. ▸ hds).symm

/-- Witness for `all_or_nothing_result`: the error payload of the concrete
repeated-definition source is exactly the collected diagnostic list. -/
theorem all_or_nothing_result_witness :
    ([Diag.repeatedDefinition 16 23 "f"] : List Diag) = collectedDiags c5Toks :=
  (all_or_nothing_result.1 c5Toks).2.2 [Diag.repeatedDefinition 16 23 "f"] rfl
